import Mathlib

namespace DurableWallets

/-!  A shallow embedding of the wallet actor in src/src/wallet.ts (the revision that
has `skipNonce` and `isRetriableError`) and of the pool rotation in the pool source.
JavaScript numbers are modelled as `Int`; the durable storage of one wallet actor as
a record of its persisted keys (the `state` key, the `address` key and the `tx:<n>`
keys); the chain client as an explicit environment giving the result of each RPC
call.  Each `storage.put` call of the submit path is additionally recorded in a
write trace, one trace element per put call (a put may batch several entries). -/

/-- NonceState of one wallet: WalletState in wallet.ts. -/
structure WalletState where
  pendingNonce : Int
  submittedNonce : Int
  confirmedNonce : Int
  deriving DecidableEq

/-- TxParams in types.ts.  `to` is an `Option` because the runtime JSON body may
omit it; the code never checks. -/
structure TxParams where
  «to» : Option String
  value : Option Int
  data : Option String
  gas : Option Int
  deriving DecidableEq

/-- StoredTx in types.ts: the per-nonce transaction record. -/
structure StoredTx where
  nonce : Int
  params : TxParams
  hash : Option String := none
  createdAt : Int
  error : Option String := none
  deriving DecidableEq

/-- The `tx:<nonce>` keys of durable storage. -/
abbrev TxMap := Int → Option StoredTx

/-- The persisted keys of one wallet actor. -/
structure Store where
  state : Option WalletState
  address : Option String
  txs : TxMap

/-- storage.put of one `tx:<nonce>` key. -/
def putTx (txs : TxMap) (n : Int) (t : StoredTx) : TxMap :=
  fun k => if k = n then some t else txs k

/-- One entry of a storage.put call. -/
inductive PutEntry where
  | stateE (st : WalletState)
  | txE (n : Int) (t : StoredTx)
  | addressE (a : String)
  deriving DecidableEq

/-- One storage.put call: a list of entries written together in that call. -/
abbrev WriteOp := List PutEntry

def applyEntry (store : Store) : PutEntry → Store
  | .stateE st => { store with state := some st }
  | .txE n t => { store with txs := putTx store.txs n t }
  | .addressE a => { store with address := some a }

def applyWriteOp (store : Store) (w : WriteOp) : Store := w.foldl applyEntry store

def applyWrites (store : Store) (ws : List WriteOp) : Store := ws.foldl applyWriteOp store

/-- SubmitTxRequest in types.ts. -/
structure SubmitTxRequest where
  «to» : Option String
  value : Option Int := none
  data : Option String := none
  abi : Option String := none
  args : List String := []
  gasLimit : Option Int := none

def strPending : String := "pending"

def str0x : String := "0x"

def skippedTag : String := "skipped: "

def strEmpty : String := ""

/-- Lower-casing of a string (the effect of JavaScript's toLowerCase on the
addresses and of the /i regex flag), written over the character list so that it
evaluates by kernel reduction. -/
def lowStr (s : String) : String := ⟨s.toList.map Char.toLower⟩

/-- Lower-cased character list of a string, for the case-insensitive regex tests. -/
def lowChars (s : String) : List Char := s.toList.map Char.toLower

def beginsWith : List Char → List Char → Bool
  | [], _ => true
  | _ :: _, [] => false
  | p :: ps, c :: cs => p == c && beginsWith ps cs

/-- Substring test on character lists. -/
def hasSub (pat s : List Char) : Bool := s.tails.any (fun t => beginsWith pat t)

/-- Case-insensitive substring test: the effect of `/pat/i.test(msg)` for a
pattern without metacharacters. -/
def containsCI (msg pat : String) : Bool := hasSub (lowChars pat) (lowChars msg)

/-- Case-insensitive test of `p1` followed (anywhere later) by `p2`: the effect of
a `/p1.*p2/i` test (the JS dot not matching a newline is abstracted away; no claim
depends on it). -/
def seqCI (msg p1 p2 : String) : Bool :=
  (lowChars msg).tails.any
    (fun t => beginsWith (lowChars p1) t && hasSub (lowChars p2) (t.drop (lowChars p1).length))

/-- The plain-substring patterns of isRetriableError in wallet.ts. -/
def retriablePats : List String :=
  [r"timeout", r"etimedout", r"econnreset", r"econnrefused", r"enotfound",
   r"socket hang up", r"429", r"too many requests", r"rate limit", r"503", r"502",
   r"service unavailable", r"header not found", r"missing trie node",
   r"already known", r"underpriced", r"less than block base fee"]

/-- isRetriableError in wallet.ts: some pattern matches the error message. -/
def isRetriableError (errMsg : String) : Bool :=
  retriablePats.any (fun p => containsCI errMsg p) || seqCI errMsg (r"txpool") (r"full")

/-- Outcome of one walletClient.sendTransaction call. -/
inductive SendOutcome where
  | ok (hash : String)
  | fail (msg : String)
  deriving DecidableEq

/-- The chain client's answers during one processNextPendingTx invocation:
the getTransactionCount result used by getOrInitState when state is absent, the
getTransactionCount result of step 1, and the sendTransaction outcome per nonce
for the queued transaction and for the zero-value self-transfer. -/
structure ChainEnv where
  initCount : Int
  count : Int
  send : Int → SendOutcome
  skipSend : Int → SendOutcome

/-- skipNonce in wallet.ts: send a 0-value self-transfer for the nonce; on any
thrown error return "0x". -/
def skipNonce (chain : ChainEnv) (nonce : Int) : String :=
  match chain.skipSend nonce with
  | .ok h => h
  | .fail _ => str0x

/-- Result of getAndIncrementNonce, together with the number of
getTransactionCount calls made and the storage.put trace. -/
structure NonceOut where
  store : Store
  nonce : Int
  chainQueries : Nat
  writes : List WriteOp

/-- getAndIncrementNonce in wallet.ts.  With persisted state: increment
pendingNonce, put the state, return pendingNonce - 1.  Without: inside
blockConcurrencyWhile, query the chain's transaction count, put the bootstrap
state, return its pendingNonce - 1.  A failing chain query propagates as an
error. -/
def getAndIncrementNonce (chainCount : Except String Int) (store : Store) :
    Except String NonceOut :=
  match store.state with
  | some st =>
      let st' : WalletState := { st with pendingNonce := st.pendingNonce + 1 }
      .ok ⟨{ store with state := some st' }, st'.pendingNonce - 1, 0,
           [[PutEntry.stateE st']]⟩
  | none =>
      match chainCount with
      | .error e => .error e
      | .ok chainNonce =>
          let lastConfirmed := chainNonce - 1
          let newState : WalletState :=
            { pendingNonce := chainNonce + 1
              submittedNonce := lastConfirmed
              confirmedNonce := lastConfirmed }
          .ok ⟨{ store with state := some newState }, newState.pendingNonce - 1, 1,
               [[PutEntry.stateE newState]]⟩

/-- Submit response of handleSubmitTransaction. -/
structure SubmitResult where
  nonce : Int
  status : String
  deriving DecidableEq

/-- Result of handleSubmitTransaction with the query count and put trace. -/
structure SubmitOut where
  store : Store
  result : SubmitResult
  chainQueries : Nat
  writes : List WriteOp

/-- The calldata derivation of handleSubmitTransaction: ABI-encoded data when a
signature is supplied (overriding raw data), the raw data otherwise.  The ABI
encoder is the external collaborator `enc`. -/
def calldataOf (enc : String → List String → String) (body : SubmitTxRequest) :
    Option String :=
  match body.abi with
  | some sig => some (enc sig body.args)
  | none => body.data

/-- The StoredTx that handleSubmitTransaction creates for an assigned nonce. -/
def recordOf (enc : String → List String → String) (now : Int) (body : SubmitTxRequest)
    (nonce : Int) : StoredTx :=
  { nonce := nonce
    params := { «to» := body.«to», value := body.value, data := calldataOf enc body,
                gas := body.gasLimit }
    createdAt := now }

/-- handleSubmitTransaction in wallet.ts: put the lower-cased address, assign the
nonce via getAndIncrementNonce, derive calldata, put the new StoredTx under its
own key, return the nonce with status pending. -/
def handleSubmitTransaction (enc : String → List String → String)
    (chainCount : Except String Int) (now : Int) (walletAddress : String)
    (body : SubmitTxRequest) (store : Store) : Except String SubmitOut :=
  let store1 : Store := { store with address := some (lowStr walletAddress) }
  match getAndIncrementNonce chainCount store1 with
  | .error e => .error e
  | .ok nres =>
      let storedTx : StoredTx := recordOf enc now body nres.nonce
      .ok { store := { nres.store with txs := putTx nres.store.txs nres.nonce storedTx }
            result := { nonce := nres.nonce, status := strPending }
            chainQueries := nres.chainQueries
            writes := [[PutEntry.addressE (lowStr walletAddress)]] ++ nres.writes
                      ++ [[PutEntry.txE nres.nonce storedTx]] }

/-- getOrInitState in wallet.ts: the persisted state, or a bootstrap seeded from
the chain's transaction count (pendingNonce = count, both watermarks count - 1). -/
def getOrInitState (chain : ChainEnv) (store : Store) : WalletState :=
  match store.state with
  | some st => st
  | none =>
      { pendingNonce := chain.initCount
        submittedNonce := chain.initCount - 1
        confirmedNonce := chain.initCount - 1 }

/-- The for-loop of processNextPendingTx, from `nonce` while nonce is at most
lastNonceToSubmit.  Returns the final state, the final tx keys and the list of
nonces for which sendTransaction was called, in call order.  `fuel` bounds the
iteration count; the caller passes exactly the window size. -/
def processLoop (chain : ChainEnv) (lastNonceToSubmit : Int) :
    Nat → Int → WalletState → TxMap → WalletState × TxMap × List Int
  | 0, _, st, txs => (st, txs, [])
  | fuel + 1, nonce, st, txs =>
      if lastNonceToSubmit < nonce then (st, txs, [])
      else
        match txs nonce with
        | none => processLoop chain lastNonceToSubmit fuel (nonce + 1) st txs
        | some tx =>
            match chain.send nonce with
            | .ok h =>
                let tx' : StoredTx := { tx with hash := some h }
                let r := processLoop chain lastNonceToSubmit fuel (nonce + 1)
                          { st with submittedNonce := nonce } (putTx txs nonce tx')
                (r.1, r.2.1, nonce :: r.2.2)
            | .fail msg =>
                if isRetriableError msg then (st, txs, [nonce])
                else
                  let h := skipNonce chain nonce
                  if h = str0x then (st, txs, [nonce])
                  else
                    let tx' : StoredTx :=
                      { tx with hash := some h, error := some (skippedTag ++ msg) }
                    let r := processLoop chain lastNonceToSubmit fuel (nonce + 1)
                              { st with submittedNonce := nonce } (putTx txs nonce tx')
                    (r.1, r.2.1, nonce :: r.2.2)

/-- processNextPendingTx in wallet.ts: load or bootstrap the state, raise
confirmedNonce to the chain's count - 1 if larger, compute the in-flight budget
and the submission window, run the loop, persist the state.  Returns the final
store and the list of nonces submitted to the chain, in order. -/
def processNextPendingTx (maxSubmitted : Int) (chain : ChainEnv) (store : Store) :
    Store × List Int :=
  let st0 := getOrInitState chain store
  let lastConfirmedOnChain := chain.count - 1
  let st1 := if lastConfirmedOnChain > st0.confirmedNonce
             then { st0 with confirmedNonce := lastConfirmedOnChain } else st0
  let inFlight := st1.submittedNonce - st1.confirmedNonce
  let canSubmit := max 0 (maxSubmitted - inFlight)
  let lastNonceToSubmit := min (st1.submittedNonce + canSubmit) (st1.pendingNonce - 1)
  let fuel := (lastNonceToSubmit - st1.submittedNonce).toNat
  let r := processLoop chain lastNonceToSubmit fuel (st1.submittedNonce + 1) st1 store.txs
  ({ store with state := some r.1, txs := r.2.1 }, r.2.2)

/-- A sequence of submit calls against one wallet, in arrival order (the actor
serializes them).  Collects each call's response; a thrown error ends the run
(it can only arise from a failed bootstrap chain query). -/
def runSubmits (enc : String → List String → String) (chainCount : Except String Int)
    (now : Int) (walletAddress : String) :
    List SubmitTxRequest → Store → Store × List (Except String SubmitResult)
  | [], store => (store, [])
  | body :: rest, store =>
      match handleSubmitTransaction enc chainCount now walletAddress body store with
      | .error e => (store, [.error e])
      | .ok sres =>
          let r := runSubmits enc chainCount now walletAddress rest sres.store
          (r.1, .ok sres.result :: r.2)

/-- The enabled pool computed by getNextWallet: all addresses minus the disabled
ones. -/
def poolOf (addresses disabled : List String) : List String :=
  addresses.filter (fun a => !(disabled.contains a))

/-- getNextWallet of the pool source: filter out disabled addresses, fail on an
empty pool, seed the cursor pseudo-randomly on first call (cursor sentinel -1),
return the address at cursor mod pool size and advance the cursor mod pool size.
`rand` stands for the Math.random draw, already reduced mod the pool size.  The
JS `%` agrees with `Int.emod` here because the cursor is never negative at its
use sites. -/
def getNextWallet (addresses disabled : List String) (nextIndex : Int) (rand : Nat) :
    Option (String × Int) :=
  let pool := poolOf addresses disabled
  if pool.length = 0 then none
  else
    let idx : Int := if nextIndex = -1 then ((rand % pool.length : Nat) : Int) else nextIndex
    let i : Nat := (idx % (pool.length : Int)).toNat
    some (pool.getD i strEmpty, (idx + 1) % (pool.length : Int))

/-- k successive getNextWallet calls against a fixed address and disabled set,
collecting the returned addresses. -/
def runNextWallet (addresses disabled : List String) : Int → Nat → List String
  | _, 0 => []
  | c, k + 1 =>
      match getNextWallet addresses disabled c 0 with
      | none => []
      | some (a, c') => a :: runNextWallet addresses disabled c' k

/-- The nonce-state invariant of the spec data model. -/
def NonceInv (st : WalletState) : Prop :=
  st.confirmedNonce ≤ st.submittedNonce ∧ st.submittedNonce ≤ st.pendingNonce - 1

/-- Modelled from the spec: "Persists the new NonceState and a new
TransactionRecord together, durably, before returning."  A submit write trace
realizes this when one single put call carries both the updated nonce state and
the new transaction record. -/
def atomicStateAndRecord (ws : List WriteOp) : Prop :=
  ∃ w ∈ ws, (∃ st, PutEntry.stateE st ∈ w) ∧ (∃ n t, PutEntry.txE n t ∈ w)

/-- A trivial ABI encoder standing in for the external collaborator in the
concrete scenarios. -/
def encW : String → List String → String := fun _ _ => strEmpty

def addrW : String := "0xabc"

def bodyW : SubmitTxRequest := { «to» := some addrW }

def stW : WalletState := ⟨5, 2, 1⟩

def storeW : Store := { state := some stW, address := none, txs := fun _ => none }

/-- The concrete request with no destination field. -/
def bodyNoTo : SubmitTxRequest := { «to» := none }

/-! ### Concrete scenarios for the witnesses -/

def hashA : String := "0xaaa"

def hashB : String := "0xbbb"

def msgRate : String := "rate limit"

def msgBad : String := "nonce too low"

/-- A simple stored record for the concrete scenarios. -/
def mkRec (n : Int) : StoredTx :=
  { nonce := n
    params := { «to» := some addrW, value := none, data := none, gas := none }
    createdAt := 0 }

def st4 : WalletState := ⟨4, 0, 0⟩

def txs4 : TxMap := fun n => if 1 ≤ n ∧ n ≤ 3 then some (mkRec n) else none

def store4 : Store := ⟨some st4, none, txs4⟩

def chain4 : ChainEnv :=
  { initCount := 1, count := 1
    send := fun n => if n = 2 then .fail msgRate else .ok hashA
    skipSend := fun _ => .ok hashA }

def chain5 : ChainEnv :=
  { initCount := 1, count := 1
    send := fun n => if n = 1 then .fail msgBad else .ok hashA
    skipSend := fun _ => .ok hashB }

def txs10 : TxMap := fun n => if n = 1 ∨ n = 3 then some (mkRec n) else none

def store10 : Store := ⟨some st4, none, txs10⟩

def chain10 : ChainEnv :=
  { initCount := 1, count := 1
    send := fun _ => .ok hashA
    skipSend := fun _ => .ok hashA }

def storeN : Store := ⟨none, none, fun _ => none⟩

def addressesW : List String := [r"0xa", r"0xb", r"0xc"]

def disabledW : List String := [r"0xb"]

/-- Proof-internal counter: how many of the first k cursor positions starting at
c land on pool index j. -/
def hits (m c k j : Nat) : Nat :=
  (List.range k).countP (fun i => (c + i) % m == j)

/-! ### Lemmas about the processing loop -/

theorem processLoop_spec (chain : ChainEnv) (L : Int) :
    ∀ (fuel : Nat) (n : Int) (st : WalletState) (txs : TxMap) (st' : WalletState)
      (txs' : TxMap) (att : List Int),
      processLoop chain L fuel n st txs = (st', txs', att) →
      st'.confirmedNonce = st.confirmedNonce ∧
      st'.pendingNonce = st.pendingNonce ∧
      (st'.submittedNonce = st.submittedNonce ∨ st'.submittedNonce ∈ att) ∧
      (∀ a ∈ att, n ≤ a ∧ a ≤ L) ∧
      att.Pairwise (fun a b => a < b) ∧
      (∀ k, k < n → txs' k = txs k) ∧
      (∀ k, L < k → txs' k = txs k) ∧
      (∀ k, k ∉ att → txs' k = txs k) := by
  intro fuel
  induction fuel with
  | zero =>
      intro n st txs st' txs' att h
      simp only [processLoop, Prod.mk.injEq] at h
      obtain ⟨rfl, rfl, rfl⟩ := h
      simp
  | succ fuel ih =>
      intro n st txs st' txs' att h
      simp only [processLoop] at h
      by_cases hLn : L < n
      · simp only [if_pos hLn, Prod.mk.injEq] at h
        obtain ⟨rfl, rfl, rfl⟩ := h
        simp
      · simp only [if_neg hLn] at h
        cases htx : txs n with
        | none =>
            simp only [htx] at h
            obtain ⟨h1, h2, h3, h4, h5, h6, h7, h8⟩ := ih (n + 1) st txs st' txs' att h
            refine ⟨h1, h2, h3, ?_, h5, ?_, h7, h8⟩
            · intro a ha; have := h4 a ha; omega
            · intro k hk; exact h6 k (by omega)
        | some tx =>
            simp only [htx] at h
            cases hsend : chain.send n with
            | ok hsh =>
                simp only [hsend] at h
                rcases hr : processLoop chain L fuel (n + 1) { st with submittedNonce := n }
                    (putTx txs n { tx with hash := some hsh }) with ⟨st2, txs2, att2⟩
                rw [hr] at h
                simp only [Prod.mk.injEq] at h
                obtain ⟨rfl, rfl, rfl⟩ := h
                obtain ⟨h1, h2, h3, h4, h5, h6, h7, h8⟩ := ih _ _ _ _ _ _ hr
                refine ⟨h1, h2, ?_, ?_, ?_, ?_, ?_, ?_⟩
                · rcases h3 with h3 | h3
                  · right; rw [h3]; exact List.mem_cons_self _ _
                  · right; exact List.mem_cons_of_mem _ h3
                · intro a ha
                  rcases List.mem_cons.mp ha with rfl | ha
                  · exact ⟨le_refl _, by omega⟩
                  · have := h4 a ha; omega
                · refine List.pairwise_cons.mpr ⟨?_, h5⟩
                  intro a ha; have := h4 a ha; omega
                · intro k hk
                  rw [h6 k (by omega)]
                  simp only [putTx]
                  rw [if_neg (by omega)]
                · intro k hk
                  rw [h7 k hk]
                  simp only [putTx]
                  rw [if_neg (by omega)]
                · intro k hk
                  have hkn : k ≠ n := fun hkn => hk (hkn ▸ List.mem_cons_self _ _)
                  have hk2 : k ∉ att2 := fun hm => hk (List.mem_cons_of_mem _ hm)
                  rw [h8 k hk2]
                  simp only [putTx]
                  rw [if_neg hkn]
            | fail msg =>
                simp only [hsend] at h
                by_cases hre : isRetriableError msg
                · simp only [hre, if_pos, ite_true, Prod.mk.injEq] at h
                  obtain ⟨rfl, rfl, rfl⟩ := h
                  refine ⟨rfl, rfl, Or.inl rfl, ?_, ?_, fun k _ => rfl, fun k _ => rfl,
                    fun k _ => rfl⟩
                  · intro a ha
                    rcases List.mem_singleton.mp ha with rfl
                    exact ⟨le_refl _, by omega⟩
                  · simp
                · simp only [hre, ite_false, Bool.false_eq_true, if_neg] at h
                  by_cases hsk : skipNonce chain n = str0x
                  · simp only [if_pos hsk, Prod.mk.injEq] at h
                    obtain ⟨rfl, rfl, rfl⟩ := h
                    refine ⟨rfl, rfl, Or.inl rfl, ?_, ?_, fun k _ => rfl, fun k _ => rfl,
                      fun k _ => rfl⟩
                    · intro a ha
                      rcases List.mem_singleton.mp ha with rfl
                      exact ⟨le_refl _, by omega⟩
                    · simp
                  · simp only [if_neg hsk] at h
                    rcases hr : processLoop chain L fuel (n + 1) { st with submittedNonce := n }
                        (putTx txs n { tx with hash := some (skipNonce chain n),
                                               error := some (skippedTag ++ msg) }) with
                      ⟨st2, txs2, att2⟩
                    rw [hr] at h
                    simp only [Prod.mk.injEq] at h
                    obtain ⟨rfl, rfl, rfl⟩ := h
                    obtain ⟨h1, h2, h3, h4, h5, h6, h7, h8⟩ := ih _ _ _ _ _ _ hr
                    refine ⟨h1, h2, ?_, ?_, ?_, ?_, ?_, ?_⟩
                    · rcases h3 with h3 | h3
                      · right; rw [h3]; exact List.mem_cons_self _ _
                      · right; exact List.mem_cons_of_mem _ h3
                    · intro a ha
                      rcases List.mem_cons.mp ha with rfl | ha
                      · exact ⟨le_refl _, by omega⟩
                      · have := h4 a ha; omega
                    · refine List.pairwise_cons.mpr ⟨?_, h5⟩
                      intro a ha; have := h4 a ha; omega
                    · intro k hk
                      rw [h6 k (by omega)]
                      simp only [putTx]
                      rw [if_neg (by omega)]
                    · intro k hk
                      rw [h7 k hk]
                      simp only [putTx]
                      rw [if_neg (by omega)]
                    · intro k hk
                      have hkn : k ≠ n := fun hkn => hk (hkn ▸ List.mem_cons_self _ _)
                      have hk2 : k ∉ att2 := fun hm => hk (List.mem_cons_of_mem _ hm)
                      rw [h8 k hk2]
                      simp only [putTx]
                      rw [if_neg hkn]

/-- If the loop still has fuel, the nonce is inside the window and its record
exists, the loop attempts it. -/
theorem processLoop_attempt_mem (chain : ChainEnv) (L : Int) (fuel : Nat) (n : Int)
    (st : WalletState) (txs : TxMap) (tx : StoredTx)
    (hfuel : fuel ≠ 0) (hn : ¬ L < n) (htx : txs n = some tx) :
    n ∈ (processLoop chain L fuel n st txs).2.2 := by
  obtain ⟨fuel, rfl⟩ : ∃ f, fuel = f + 1 := ⟨fuel - 1, by omega⟩
  simp only [processLoop, if_neg hn, htx]
  cases hsend : chain.send n with
  | ok hsh => simp
  | fail msg =>
      by_cases hre : isRetriableError msg
      · simp [hre]
      · simp only [hre, ite_false, Bool.false_eq_true, if_neg]
        by_cases hsk : skipNonce chain n = str0x
        · simp [hsk]
        · simp [hsk]

/-- A nonce whose record is absent is never attempted and never gains a record. -/
theorem processLoop_miss (chain : ChainEnv) (L : Int) :
    ∀ (fuel : Nat) (n : Int) (st : WalletState) (txs : TxMap) (st' : WalletState)
      (txs' : TxMap) (att : List Int) (v : Int),
      processLoop chain L fuel n st txs = (st', txs', att) →
      txs v = none →
      v ∉ att ∧ txs' v = none := by
  intro fuel
  induction fuel with
  | zero =>
      intro n st txs st' txs' att v h hv
      simp only [processLoop, Prod.mk.injEq] at h
      obtain ⟨rfl, rfl, rfl⟩ := h
      simp [hv]
  | succ fuel ih =>
      intro n st txs st' txs' att v h hv
      simp only [processLoop] at h
      by_cases hLn : L < n
      · simp only [if_pos hLn, Prod.mk.injEq] at h
        obtain ⟨rfl, rfl, rfl⟩ := h
        simp [hv]
      · simp only [if_neg hLn] at h
        cases htx : txs n with
        | none =>
            simp only [htx] at h
            exact ih (n + 1) st txs st' txs' att v h hv
        | some tx =>
            have hvn : v ≠ n := fun hvn => by rw [hvn, htx] at hv; cases hv
            simp only [htx] at h
            cases hsend : chain.send n with
            | ok hsh =>
                simp only [hsend] at h
                rcases hr : processLoop chain L fuel (n + 1) { st with submittedNonce := n }
                    (putTx txs n { tx with hash := some hsh }) with ⟨st2, txs2, att2⟩
                rw [hr] at h
                simp only [Prod.mk.injEq] at h
                obtain ⟨rfl, rfl, rfl⟩ := h
                have hv2 : putTx txs n { tx with hash := some hsh } v = none := by
                  simp only [putTx]; rw [if_neg hvn]; exact hv
                obtain ⟨hm, he⟩ := ih _ _ _ _ _ _ _ hr hv2
                exact ⟨by simp [hvn, hm], he⟩
            | fail msg =>
                simp only [hsend] at h
                by_cases hre : isRetriableError msg
                · simp only [hre, ite_true, Prod.mk.injEq] at h
                  obtain ⟨rfl, rfl, rfl⟩ := h
                  simp [hvn, hv]
                · simp only [hre, ite_false, Bool.false_eq_true, if_neg] at h
                  by_cases hsk : skipNonce chain n = str0x
                  · simp only [if_pos hsk, Prod.mk.injEq] at h
                    obtain ⟨rfl, rfl, rfl⟩ := h
                    simp [hvn, hv]
                  · simp only [if_neg hsk] at h
                    rcases hr : processLoop chain L fuel (n + 1) { st with submittedNonce := n }
                        (putTx txs n { tx with hash := some (skipNonce chain n),
                                               error := some (skippedTag ++ msg) }) with
                      ⟨st2, txs2, att2⟩
                    rw [hr] at h
                    simp only [Prod.mk.injEq] at h
                    obtain ⟨rfl, rfl, rfl⟩ := h
                    have hv2 : putTx txs n { tx with hash := some (skipNonce chain n), error := some (skippedTag ++ msg) } v = none := by
                      simp only [putTx]; rw [if_neg hvn]; exact hv
                    obtain ⟨hm, he⟩ := ih _ _ _ _ _ _ _ hr hv2
                    exact ⟨by simp [hvn, hm], he⟩

/-- An attempted nonce whose chain submission succeeded is covered by the final
submitted watermark. -/
theorem processLoop_ok_advances (chain : ChainEnv) (L : Int) :
    ∀ (fuel : Nat) (n : Int) (st : WalletState) (txs : TxMap) (st' : WalletState)
      (txs' : TxMap) (att : List Int) (g : Int) (hsh : String),
      processLoop chain L fuel n st txs = (st', txs', att) →
      g ∈ att → chain.send g = .ok hsh →
      g ≤ st'.submittedNonce := by
  intro fuel
  induction fuel with
  | zero =>
      intro n st txs st' txs' att g hsh h hg _
      simp only [processLoop, Prod.mk.injEq] at h
      obtain ⟨rfl, rfl, rfl⟩ := h
      cases hg
  | succ fuel ih =>
      intro n st txs st' txs' att g hsh h hg hok
      simp only [processLoop] at h
      by_cases hLn : L < n
      · simp only [if_pos hLn, Prod.mk.injEq] at h
        obtain ⟨rfl, rfl, rfl⟩ := h
        cases hg
      · simp only [if_neg hLn] at h
        cases htx : txs n with
        | none =>
            simp only [htx] at h
            exact ih (n + 1) st txs st' txs' att g hsh h hg hok
        | some tx =>
            simp only [htx] at h
            cases hsend : chain.send n with
            | ok hsh2 =>
                simp only [hsend] at h
                rcases hr : processLoop chain L fuel (n + 1) { st with submittedNonce := n }
                    (putTx txs n { tx with hash := some hsh2 }) with ⟨st2, txs2, att2⟩
                rw [hr] at h
                simp only [Prod.mk.injEq] at h
                obtain ⟨rfl, rfl, rfl⟩ := h
                rcases List.mem_cons.mp hg with rfl | hg2
                · obtain ⟨_, _, h3, h4, _⟩ := processLoop_spec chain L fuel _ _ _ _ _ _ hr
                  rcases h3 with h3 | h3
                  · rw [h3]
                  · have := (h4 _ h3).1; omega
                · exact ih _ _ _ _ _ _ _ _ hr hg2 hok
            | fail msg =>
                simp only [hsend] at h
                by_cases hre : isRetriableError msg
                · simp only [hre, ite_true, Prod.mk.injEq] at h
                  obtain ⟨rfl, rfl, rfl⟩ := h
                  rcases List.mem_singleton.mp hg with rfl
                  rw [hok] at hsend; cases hsend
                · simp only [hre, ite_false, Bool.false_eq_true, if_neg] at h
                  by_cases hsk : skipNonce chain n = str0x
                  · simp only [if_pos hsk, Prod.mk.injEq] at h
                    obtain ⟨rfl, rfl, rfl⟩ := h
                    rcases List.mem_singleton.mp hg with rfl
                    rw [hok] at hsend; cases hsend
                  · simp only [if_neg hsk] at h
                    rcases hr : processLoop chain L fuel (n + 1) { st with submittedNonce := n }
                        (putTx txs n { tx with hash := some (skipNonce chain n),
                                               error := some (skippedTag ++ msg) }) with
                      ⟨st2, txs2, att2⟩
                    rw [hr] at h
                    simp only [Prod.mk.injEq] at h
                    obtain ⟨rfl, rfl, rfl⟩ := h
                    rcases List.mem_cons.mp hg with rfl | hg2
                    · rw [hok] at hsend; cases hsend
                    · exact ih _ _ _ _ _ _ _ _ hr hg2 hok

/-- If an attempted nonce failed with a retriable error, it is the last attempt,
nothing at or above it is modified, and the submitted watermark stays below it. -/
theorem processLoop_retriable (chain : ChainEnv) (L : Int) :
    ∀ (fuel : Nat) (n : Int) (st : WalletState) (txs : TxMap) (st' : WalletState)
      (txs' : TxMap) (att : List Int) (f : Int) (msg : String),
      processLoop chain L fuel n st txs = (st', txs', att) →
      st.submittedNonce < n →
      f ∈ att → chain.send f = .fail msg → isRetriableError msg = true →
      (∀ a ∈ att, a ≤ f) ∧ (∀ k, f ≤ k → txs' k = txs k) ∧ st'.submittedNonce < f := by
  intro fuel
  induction fuel with
  | zero =>
      intro n st txs st' txs' att f msg h _ hf _ _
      simp only [processLoop, Prod.mk.injEq] at h
      obtain ⟨rfl, rfl, rfl⟩ := h
      cases hf
  | succ fuel ih =>
      intro n st txs st' txs' att f msg h hsn hf hfail hret
      simp only [processLoop] at h
      by_cases hLn : L < n
      · simp only [if_pos hLn, Prod.mk.injEq] at h
        obtain ⟨rfl, rfl, rfl⟩ := h
        cases hf
      · simp only [if_neg hLn] at h
        cases htx : txs n with
        | none =>
            simp only [htx] at h
            exact ih (n + 1) st txs st' txs' att f msg h (by omega) hf hfail hret
        | some tx =>
            simp only [htx] at h
            cases hsend : chain.send n with
            | ok hsh2 =>
                simp only [hsend] at h
                rcases hr : processLoop chain L fuel (n + 1) { st with submittedNonce := n }
                    (putTx txs n { tx with hash := some hsh2 }) with ⟨st2, txs2, att2⟩
                rw [hr] at h
                simp only [Prod.mk.injEq] at h
                obtain ⟨rfl, rfl, rfl⟩ := h
                rcases List.mem_cons.mp hf with rfl | hf2
                · rw [hfail] at hsend; cases hsend
                · have hnf : n + 1 ≤ f :=
                    ((processLoop_spec chain L fuel _ _ _ _ _ _ hr).2.2.2.1 f hf2).1
                  obtain ⟨ha, hfr, hs⟩ := ih _ _ _ _ _ _ _ _ hr (by simp) hf2 hfail hret
                  refine ⟨?_, ?_, hs⟩
                  · intro a ha2
                    rcases List.mem_cons.mp ha2 with rfl | ha2
                    · omega
                    · exact ha a ha2
                  · intro k hk
                    rw [hfr k hk]
                    simp only [putTx]
                    rw [if_neg (by omega)]
            | fail msg0 =>
                simp only [hsend] at h
                by_cases hre : isRetriableError msg0
                · simp only [hre, ite_true, Prod.mk.injEq] at h
                  obtain ⟨rfl, rfl, rfl⟩ := h
                  rcases List.mem_singleton.mp hf with rfl
                  exact ⟨fun a ha => le_of_eq (List.mem_singleton.mp ha),
                    fun k _ => rfl, hsn⟩
                · simp only [hre, ite_false, Bool.false_eq_true, if_neg] at h
                  by_cases hsk : skipNonce chain n = str0x
                  · simp only [if_pos hsk, Prod.mk.injEq] at h
                    obtain ⟨rfl, rfl, rfl⟩ := h
                    rcases List.mem_singleton.mp hf with rfl
                    rw [hfail] at hsend
                    injection hsend with hmeq
                    rw [hmeq] at hret
                    exact absurd hret hre
                  · simp only [if_neg hsk] at h
                    rcases hr : processLoop chain L fuel (n + 1) { st with submittedNonce := n }
                        (putTx txs n { tx with hash := some (skipNonce chain n), error := some (skippedTag ++ msg0) }) with
                      ⟨st2, txs2, att2⟩
                    rw [hr] at h
                    simp only [Prod.mk.injEq] at h
                    obtain ⟨rfl, rfl, rfl⟩ := h
                    rcases List.mem_cons.mp hf with rfl | hf2
                    · rw [hfail] at hsend
                      injection hsend with hmeq
                      rw [hmeq] at hret
                      exact absurd hret hre
                    · have hnf : n + 1 ≤ f :=
                        ((processLoop_spec chain L fuel _ _ _ _ _ _ hr).2.2.2.1 f hf2).1
                      obtain ⟨ha, hfr, hs⟩ := ih _ _ _ _ _ _ _ _ hr (by simp) hf2 hfail hret
                      refine ⟨?_, ?_, hs⟩
                      · intro a ha2
                        rcases List.mem_cons.mp ha2 with rfl | ha2
                        · omega
                        · exact ha a ha2
                      · intro k hk
                        rw [hfr k hk]
                        simp only [putTx]
                        rw [if_neg (by omega)]

/-- If an attempted nonce failed with a non-retriable error, the loop issued the
self-transfer skip: on skip success the record gains the skip hash and the
annotated error, the submitted watermark covers the nonce and the next window
nonce with a record is attempted in the same run; on skip failure the loop
stopped with the record, all higher records and the watermark untouched. -/
theorem processLoop_nonretriable (chain : ChainEnv) (L : Int) :
    ∀ (fuel : Nat) (n : Int) (st : WalletState) (txs : TxMap) (st' : WalletState)
      (txs' : TxMap) (att : List Int) (f : Int) (msg : String) (tx : StoredTx),
      processLoop chain L fuel n st txs = (st', txs', att) →
      st.submittedNonce < n →
      (L + 1 - n).toNat ≤ fuel →
      f ∈ att → txs f = some tx → chain.send f = .fail msg →
      isRetriableError msg = false →
      (skipNonce chain f ≠ str0x →
          txs' f = some { tx with hash := some (skipNonce chain f), error := some (skippedTag ++ msg) } ∧
          f ≤ st'.submittedNonce ∧
          (∀ t2, f + 1 ≤ L → txs (f + 1) = some t2 → (f + 1) ∈ att)) ∧
      (skipNonce chain f = str0x →
          (∀ a ∈ att, a ≤ f) ∧ (∀ k, f ≤ k → txs' k = txs k) ∧
          st'.submittedNonce < f) := by
  intro fuel
  induction fuel with
  | zero =>
      intro n st txs st' txs' att f msg tx h _ _ hf _ _ _
      simp only [processLoop, Prod.mk.injEq] at h
      obtain ⟨rfl, rfl, rfl⟩ := h
      cases hf
  | succ fuel ih =>
      intro n st txs st' txs' att f msg tx h hsn hfl hf htxf hfail hnr
      simp only [processLoop] at h
      by_cases hLn : L < n
      · simp only [if_pos hLn, Prod.mk.injEq] at h
        obtain ⟨rfl, rfl, rfl⟩ := h
        cases hf
      · simp only [if_neg hLn] at h
        cases htx : txs n with
        | none =>
            simp only [htx] at h
            exact ih (n + 1) st txs st' txs' att f msg tx h (by omega) (by omega)
              hf htxf hfail hnr
        | some tx0 =>
            simp only [htx] at h
            cases hsend : chain.send n with
            | ok hsh2 =>
                simp only [hsend] at h
                rcases hr : processLoop chain L fuel (n + 1) { st with submittedNonce := n }
                    (putTx txs n { tx0 with hash := some hsh2 }) with ⟨st2, txs2, att2⟩
                rw [hr] at h
                simp only [Prod.mk.injEq] at h
                obtain ⟨rfl, rfl, rfl⟩ := h
                rcases List.mem_cons.mp hf with rfl | hf2
                · rw [hfail] at hsend; cases hsend
                · have hnf : n + 1 ≤ f :=
                    ((processLoop_spec chain L fuel _ _ _ _ _ _ hr).2.2.2.1 f hf2).1
                  have htxf2 : putTx txs n { tx0 with hash := some hsh2 } f = some tx := by
                    simp only [putTx]; rw [if_neg (by omega)]; exact htxf
                  obtain ⟨hi, hii⟩ := ih _ _ _ _ _ _ _ _ _ hr (by simp) (by omega)
                    hf2 htxf2 hfail hnr
                  constructor
                  · intro hskne
                    obtain ⟨ha, hb, hc⟩ := hi hskne
                    refine ⟨ha, hb, ?_⟩
                    intro t2 hL1 ht2
                    have ht2' : putTx txs n { tx0 with hash := some hsh2 } (f + 1) = some t2 := by
                      simp only [putTx]; rw [if_neg (by omega)]; exact ht2
                    exact List.mem_cons_of_mem _ (hc t2 hL1 ht2')
                  · intro hsk0
                    obtain ⟨ha, hb, hc⟩ := hii hsk0
                    refine ⟨?_, ?_, hc⟩
                    · intro a ha2
                      rcases List.mem_cons.mp ha2 with rfl | ha2
                      · omega
                      · exact ha a ha2
                    · intro k hk
                      rw [hb k hk]
                      simp only [putTx]
                      rw [if_neg (by omega)]
            | fail msg0 =>
                simp only [hsend] at h
                by_cases hre : isRetriableError msg0
                · simp only [hre, ite_true, Prod.mk.injEq] at h
                  obtain ⟨rfl, rfl, rfl⟩ := h
                  rcases List.mem_singleton.mp hf with rfl
                  rw [hfail] at hsend
                  injection hsend with hmeq
                  rw [hmeq] at hnr
                  rw [hnr] at hre
                  exact Bool.noConfusion hre
                · simp only [hre, ite_false, Bool.false_eq_true, if_neg] at h
                  by_cases hsk : skipNonce chain n = str0x
                  · simp only [if_pos hsk, Prod.mk.injEq] at h
                    obtain ⟨rfl, rfl, rfl⟩ := h
                    rcases List.mem_singleton.mp hf with rfl
                    constructor
                    · intro hskne
                      exact absurd hsk hskne
                    · intro _
                      exact ⟨fun a ha => le_of_eq (List.mem_singleton.mp ha),
                        fun k _ => rfl, hsn⟩
                  · simp only [if_neg hsk] at h
                    rcases hr : processLoop chain L fuel (n + 1) { st with submittedNonce := n }
                        (putTx txs n { tx0 with hash := some (skipNonce chain n), error := some (skippedTag ++ msg0) }) with
                      ⟨st2, txs2, att2⟩
                    rw [hr] at h
                    simp only [Prod.mk.injEq] at h
                    obtain ⟨rfl, rfl, rfl⟩ := h
                    obtain ⟨hs1, hs2, hs3, hs4, hs5, hs6, hs7, hs8⟩ :=
                      processLoop_spec chain L fuel _ _ _ _ _ _ hr
                    rcases List.mem_cons.mp hf with rfl | hf2
                    · rw [hfail] at hsend
                      injection hsend with hmeq
                      rw [htxf] at htx
                      injection htx with htxeq
                      constructor
                      · intro _
                        refine ⟨?_, ?_, ?_⟩
                        · rw [hs6 f (by omega)]
                          rw [hmeq, htxeq]
                          simp [putTx]
                        · rcases hs3 with h3 | h3
                          · simp [h3]
                          · have := (hs4 _ h3).1; omega
                        · intro t2 hL1 ht2
                          have ht2' : putTx txs f { tx0 with hash := some (skipNonce chain f), error := some (skippedTag ++ msg0) } (f + 1) = some t2 := by
                            simp only [putTx]; rw [if_neg (by omega)]; exact ht2
                          have hmem := processLoop_attempt_mem chain L fuel (f + 1)
                            { st with submittedNonce := f } _ t2 (by omega) (by omega) ht2'
                          rw [hr] at hmem
                          exact List.mem_cons_of_mem _ hmem
                      · intro hsk0
                        exact absurd hsk0 hsk
                    · have hnf : n + 1 ≤ f := (hs4 f hf2).1
                      have htxf2 : putTx txs n { tx0 with hash := some (skipNonce chain n), error := some (skippedTag ++ msg0) } f = some tx := by
                        simp only [putTx]; rw [if_neg (by omega)]; exact htxf
                      obtain ⟨hi, hii⟩ := ih _ _ _ _ _ _ _ _ _ hr (by simp) (by omega)
                        hf2 htxf2 hfail hnr
                      constructor
                      · intro hskne
                        obtain ⟨ha, hb, hc⟩ := hi hskne
                        refine ⟨ha, hb, ?_⟩
                        intro t2 hL1 ht2
                        have ht2' : putTx txs n { tx0 with hash := some (skipNonce chain n), error := some (skippedTag ++ msg0) } (f + 1) = some t2 := by
                          simp only [putTx]; rw [if_neg (by omega)]; exact ht2
                        exact List.mem_cons_of_mem _ (hc t2 hL1 ht2')
                      · intro hsk0
                        obtain ⟨ha, hb, hc⟩ := hii hsk0
                        refine ⟨?_, ?_, hc⟩
                        · intro a ha2
                          rcases List.mem_cons.mp ha2 with rfl | ha2
                          · omega
                          · exact ha a ha2
                        · intro k hk
                          rw [hb k hk]
                          simp only [putTx]
                          rw [if_neg (by omega)]

/-- Destructuring of one processNextPendingTx invocation on a wallet with
persisted state: the confirmed watermark is raised to the chain count minus one,
the window end is computed from the recomputed in-flight budget, and the result
is the loop's outcome. -/
theorem processNext_destruct (M : Int) (chain : ChainEnv) (store : Store) (st : WalletState)
    (h : store.state = some st) :
    ∃ (st1 : WalletState) (L : Int) (st' : WalletState) (txs' : TxMap) (att : List Int),
      st1.pendingNonce = st.pendingNonce ∧
      st1.submittedNonce = st.submittedNonce ∧
      st1.confirmedNonce = max st.confirmedNonce (chain.count - 1) ∧
      L = min (st1.submittedNonce + max 0 (M - (st1.submittedNonce - st1.confirmedNonce)))
            (st1.pendingNonce - 1) ∧
      processLoop chain L (L - st1.submittedNonce).toNat (st1.submittedNonce + 1) st1 store.txs
        = (st', txs', att) ∧
      processNextPendingTx M chain store = ({ store with state := some st', txs := txs' }, att) := by
  by_cases hcc : chain.count - 1 > st.confirmedNonce
  · rcases hr : processLoop chain
        (min (st.submittedNonce + max 0 (M - (st.submittedNonce - (chain.count - 1))))
          (st.pendingNonce - 1))
        ((min (st.submittedNonce + max 0 (M - (st.submittedNonce - (chain.count - 1))))
          (st.pendingNonce - 1)) - st.submittedNonce).toNat
        (st.submittedNonce + 1) { st with confirmedNonce := chain.count - 1 } store.txs with
      ⟨st', txs', att⟩
    refine ⟨{ st with confirmedNonce := chain.count - 1 }, _, st', txs', att,
      rfl, rfl, by simp; omega, rfl, hr, ?_⟩
    simp only [processNextPendingTx, getOrInitState, h, if_pos hcc]
    rw [hr]
  · rcases hr : processLoop chain
        (min (st.submittedNonce + max 0 (M - (st.submittedNonce - st.confirmedNonce)))
          (st.pendingNonce - 1))
        ((min (st.submittedNonce + max 0 (M - (st.submittedNonce - st.confirmedNonce)))
          (st.pendingNonce - 1)) - st.submittedNonce).toNat
        (st.submittedNonce + 1) st store.txs with
      ⟨st', txs', att⟩
    refine ⟨st, _, st', txs', att, rfl, rfl, by omega, rfl, hr, ?_⟩
    simp only [processNextPendingTx, getOrInitState, h, if_neg hcc]
    rw [hr]

/-- One submit call on a wallet with persisted state: it succeeds (whatever the
chain would answer), assigns the current pendingNonce, bumps it by one, leaves
the watermarks alone, stores the new record under the assigned nonce and issues
exactly the three separate put calls, with no chain query. -/
theorem handleSubmit_state_some (enc : String → List String → String)
    (cc : Except String Int) (now : Int) (addr : String) (body : SubmitTxRequest)
    (store : Store) (st : WalletState) (h : store.state = some st) :
    handleSubmitTransaction enc cc now addr body store = .ok
      { store := { state := some { st with pendingNonce := st.pendingNonce + 1 }
                   address := some (lowStr addr)
                   txs := putTx store.txs st.pendingNonce (recordOf enc now body st.pendingNonce) }
        result := { nonce := st.pendingNonce, status := strPending }
        chainQueries := 0
        writes := [[PutEntry.addressE (lowStr addr)],
          [PutEntry.stateE { st with pendingNonce := st.pendingNonce + 1 }],
          [PutEntry.txE st.pendingNonce (recordOf enc now body st.pendingNonce)]] } := by
  have hn : st.pendingNonce + 1 - 1 = st.pendingNonce := by omega
  simp only [handleSubmitTransaction, getAndIncrementNonce, h]
  simp [hn]

/-! ### Claim theorems -/

/-- C2: the NonceState invariant confirmedNonce ≤ submittedNonce ≤ pendingNonce - 1
holds after initialization (either bootstrap path), is preserved by every submit
and by every processQueue invocation — the latter under the environment fact that
the ledger's confirmed count never exceeds the submitted watermark plus one — and
the three watermarks never decrease across these operations; in particular
processQueue moves confirmedNonce exactly to the max of its old value and the
chain-reported count minus one, never lower. -/
theorem C2_nonce_state_invariant :
    (∀ (cc : Int) (store : Store) (nres : NonceOut),
        store.state = none →
        getAndIncrementNonce (.ok cc) store = .ok nres →
        nres.store.state = some ⟨cc + 1, cc - 1, cc - 1⟩ ∧
        NonceInv (⟨cc + 1, cc - 1, cc - 1⟩ : WalletState)) ∧
    (∀ (chain : ChainEnv) (store : Store), store.state = none →
        NonceInv (getOrInitState chain store)) ∧
    (∀ (enc : String → List String → String) (cc : Except String Int) (now : Int)
        (addr : String) (body : SubmitTxRequest) (store : Store) (st : WalletState)
        (sres : SubmitOut),
        store.state = some st → NonceInv st →
        handleSubmitTransaction enc cc now addr body store = .ok sres →
        ∃ st', sres.store.state = some st' ∧ NonceInv st' ∧
          st'.confirmedNonce = st.confirmedNonce ∧
          st'.submittedNonce = st.submittedNonce ∧
          st'.pendingNonce = st.pendingNonce + 1) ∧
    (∀ (M : Int) (chain : ChainEnv) (store : Store) (st : WalletState),
        store.state = some st → NonceInv st →
        chain.count - 1 ≤ st.submittedNonce →
        ∃ st', (processNextPendingTx M chain store).1.state = some st' ∧ NonceInv st' ∧
          st'.confirmedNonce = max st.confirmedNonce (chain.count - 1) ∧
          st.confirmedNonce ≤ st'.confirmedNonce ∧
          st.submittedNonce ≤ st'.submittedNonce ∧
          st'.pendingNonce = st.pendingNonce) := by
  refine ⟨?_, ?_, ?_, ?_⟩
  · intro cc store nres h0 he
    simp only [getAndIncrementNonce, h0] at he
    injection he with he
    subst he
    exact ⟨rfl, by constructor <;> simp⟩
  · intro chain store h0
    simp only [getOrInitState, h0, NonceInv]
    constructor <;> simp
  · intro enc cc now addr body store st sres h hinv hsub
    rw [handleSubmit_state_some enc cc now addr body store st h] at hsub
    injection hsub with hsub
    subst hsub
    obtain ⟨h1, h2⟩ := hinv
    refine ⟨{ st with pendingNonce := st.pendingNonce + 1 }, rfl, ⟨by simpa, by simp; omega⟩,
      rfl, rfl, rfl⟩
  · intro M chain store st h hinv hcc
    obtain ⟨st1, L, st', txs', att, hp, hs, hc, hL, hloop, heq⟩ :=
      processNext_destruct M chain store st h
    obtain ⟨l1, l2, l3, l4, _, _, _, _⟩ := processLoop_spec chain L _ _ _ _ _ _ _ hloop
    obtain ⟨h1, h2⟩ := hinv
    refine ⟨st', by rw [heq], ⟨?_, ?_⟩, ?_, ?_, ?_, ?_⟩
    · rcases l3 with l3 | l3
      · omega
      · have := (l4 _ l3).1; omega
    · rcases l3 with l3 | l3
      · omega
      · have := (l4 _ l3).2; omega
    · omega
    · omega
    · rcases l3 with l3 | l3
      · omega
      · have := (l4 _ l3).1; omega
    · omega

/-- C3: assuming the in-flight bound submittedNonce - confirmedNonce ≤ maxInFlight
on entry (it holds in every reachable state: it is 0 after bootstrap and submit
does not touch either watermark), one processQueue invocation re-establishes it,
and it only attempts nonces in the half-open window from submittedNonce
(exclusive) to min(submittedNonce + budget, pendingNonce - 1) (inclusive), where
budget = max 0 (maxInFlight - inFlight) and inFlight is recomputed from the
freshly raised confirmedNonce. -/
theorem C3_in_flight_window (M : Int) (chain : ChainEnv) (store : Store)
    (st : WalletState) (h : store.state = some st)
    (hifl : st.submittedNonce - st.confirmedNonce ≤ M) :
    (∃ st', (processNextPendingTx M chain store).1.state = some st' ∧
      st'.submittedNonce - st'.confirmedNonce ≤ M) ∧
    (∀ a ∈ (processNextPendingTx M chain store).2,
      st.submittedNonce < a ∧
      a ≤ min (st.submittedNonce +
            max 0 (M - (st.submittedNonce - max st.confirmedNonce (chain.count - 1))))
          (st.pendingNonce - 1)) := by
  obtain ⟨st1, L, st', txs', att, hp, hs, hc, hL, hloop, heq⟩ :=
    processNext_destruct M chain store st h
  obtain ⟨l1, l2, l3, l4, _, _, _, _⟩ := processLoop_spec chain L _ _ _ _ _ _ _ hloop
  constructor
  · refine ⟨st', by rw [heq], ?_⟩
    rcases l3 with l3 | l3
    · omega
    · have := (l4 _ l3).2; omega
  · intro a ha
    rw [heq] at ha
    have := l4 a ha
    omega

/-- List form of consecutive submit responses shifted by one. -/
theorem map_range_nonce_shift (p : Int) (n : Nat) :
    (List.range (n + 1)).map
        (fun i : Nat => (Except.ok ⟨p + i, strPending⟩ : Except String SubmitResult)) =
      Except.ok ⟨p, strPending⟩ ::
        (List.range n).map
          (fun i : Nat => (Except.ok ⟨p + 1 + i, strPending⟩ : Except String SubmitResult)) := by
  rw [List.range_succ_eq_map, List.map_cons, List.map_map]
  congr 1
  · simp
  · apply List.map_congr_left
    intro i _
    simp only [Function.comp]
    congr 2
    push_cast
    omega

/-- C1: a run of N submit calls against a wallet whose NonceState holds
pendingNonce p answers every call with status pending and assigns exactly the
nonces p, p+1, ..., p+N-1 in order (no duplicates, no gaps); each call raises
pendingNonce by exactly one and the run leaves the other watermarks alone. -/
theorem C1_submit_sequence (enc : String → List String → String)
    (cc : Except String Int) (now : Int) (addr : String) :
    ∀ (reqs : List SubmitTxRequest) (store : Store) (st : WalletState),
      store.state = some st →
      (runSubmits enc cc now addr reqs store).2 =
        (List.range reqs.length).map
          (fun i : Nat => Except.ok ⟨st.pendingNonce + i, strPending⟩) ∧
      ∃ st', (runSubmits enc cc now addr reqs store).1.state = some st' ∧
        st'.pendingNonce = st.pendingNonce + reqs.length ∧
        st'.submittedNonce = st.submittedNonce ∧
        st'.confirmedNonce = st.confirmedNonce := by
  intro reqs
  induction reqs with
  | nil =>
      intro store st h
      exact ⟨by simp [runSubmits], st, h, by simp, rfl, rfl⟩
  | cons body rest ih =>
      intro store st h
      simp only [runSubmits, handleSubmit_state_some enc cc now addr body store st h]
      obtain ⟨ih1, st', ih2, ih3, ih4, ih5⟩ := ih
        { state := some { st with pendingNonce := st.pendingNonce + 1 }
          address := some (lowStr addr)
          txs := putTx store.txs st.pendingNonce (recordOf enc now body st.pendingNonce) }
        { st with pendingNonce := st.pendingNonce + 1 } rfl
      constructor
      · rw [ih1]
        rw [List.length_cons, map_range_nonce_shift]
      · refine ⟨st', ih2, ?_, ih4, ih5⟩
        rw [ih3]
        simp
        omega

/-- C4: processQueue attempts nonces in strictly increasing order; when an
attempted nonce fails with an error classified retriable, it is the last attempt
of the invocation, its stored record is left exactly as it was (no hash set, no
error annotation), every record at a higher nonce is untouched, and the
submitted watermark stays strictly below the failed nonce, so the next wake-up
starts there again. -/
theorem C4_retriable_stops (M : Int) (chain : ChainEnv) (store : Store)
    (st : WalletState) (f : Int) (msg : String)
    (h : store.state = some st)
    (hmem : f ∈ (processNextPendingTx M chain store).2)
    (hfail : chain.send f = .fail msg)
    (hret : isRetriableError msg = true) :
    List.Pairwise (fun a b => a < b) (processNextPendingTx M chain store).2 ∧
    (∀ a ∈ (processNextPendingTx M chain store).2, a ≤ f) ∧
    (processNextPendingTx M chain store).1.txs f = store.txs f ∧
    (∀ k, f < k → (processNextPendingTx M chain store).1.txs k = store.txs k) ∧
    ∃ st', (processNextPendingTx M chain store).1.state = some st' ∧
      st'.submittedNonce < f := by
  obtain ⟨st1, L, st', txs', att, hp, hs, hc, hL, hloop, heq⟩ :=
    processNext_destruct M chain store st h
  rw [heq] at hmem
  simp only [heq]
  obtain ⟨_, _, _, _, l5, _, _, _⟩ := processLoop_spec chain L _ _ _ _ _ _ _ hloop
  obtain ⟨r1, r2, r3⟩ := processLoop_retriable chain L _ _ _ _ _ _ _ _ _ hloop
    (by omega) hmem hfail hret
  exact ⟨l5, r1, r2 f (le_refl f), fun k hk => r2 k (by omega), st', rfl, r3⟩

/-- C5: when an attempted nonce fails with an error classified non-retriable, the
loop sends the zero-value self-transfer with that nonce; if the skip succeeds its
hash is stored on the record together with the error annotated by the skipped
tag, the submitted watermark advances to cover the nonce, and the next window
nonce with a record is attempted in the same invocation; if the skip itself
fails, the loop stops with the record, all higher records and the watermark
untouched, to be retried wholesale next wake-up. -/
theorem C5_nonretriable_skip (M : Int) (chain : ChainEnv) (store : Store)
    (st : WalletState) (f : Int) (msg : String) (tx : StoredTx)
    (h : store.state = some st)
    (hmem : f ∈ (processNextPendingTx M chain store).2)
    (htx : store.txs f = some tx)
    (hfail : chain.send f = .fail msg)
    (hret : isRetriableError msg = false) :
    (skipNonce chain f ≠ str0x →
      (processNextPendingTx M chain store).1.txs f =
        some { tx with hash := some (skipNonce chain f),
                       error := some (skippedTag ++ msg) } ∧
      (∃ st', (processNextPendingTx M chain store).1.state = some st' ∧
        f ≤ st'.submittedNonce) ∧
      (∀ t2, f + 1 ≤ min (st.submittedNonce +
            max 0 (M - (st.submittedNonce - max st.confirmedNonce (chain.count - 1))))
          (st.pendingNonce - 1) →
        store.txs (f + 1) = some t2 →
        (f + 1) ∈ (processNextPendingTx M chain store).2)) ∧
    (skipNonce chain f = str0x →
      (∀ a ∈ (processNextPendingTx M chain store).2, a ≤ f) ∧
      (∀ k, f ≤ k → (processNextPendingTx M chain store).1.txs k = store.txs k) ∧
      ∃ st', (processNextPendingTx M chain store).1.state = some st' ∧
        st'.submittedNonce < f) := by
  obtain ⟨st1, L, st', txs', att, hp, hs, hc, hL, hloop, heq⟩ :=
    processNext_destruct M chain store st h
  rw [heq] at hmem
  simp only [heq]
  have hLf : L = min (st.submittedNonce +
      max 0 (M - (st.submittedNonce - max st.confirmedNonce (chain.count - 1))))
      (st.pendingNonce - 1) := by omega
  obtain ⟨hi, hii⟩ := processLoop_nonretriable chain L _ _ _ _ _ _ _ _ _ _ hloop
    (by omega) (by omega) hmem htx hfail hret
  constructor
  · intro hskne
    obtain ⟨ha, hb, hcnt⟩ := hi hskne
    exact ⟨ha, ⟨st', rfl, hb⟩, fun t2 hwin ht2 => hcnt t2 (by omega) ht2⟩
  · intro hsk0
    obtain ⟨ha, hb, hcnt⟩ := hii hsk0
    exact ⟨ha, hb, st', rfl, hcnt⟩

/-- C10: a nonce inside the submission window whose record is absent from storage
is silently skipped: it is never submitted to the chain, no record, hash or error
is written for it, the submitted watermark is never set to it, a later successful
submission at a higher nonce in the same loop advances the watermark past it, and
any invocation started once the watermark has reached the nonce can never attempt
it again — the nonce stays unconsumed. -/
theorem C10_missing_record (M : Int) (chain : ChainEnv) (store : Store)
    (st : WalletState) (v : Int)
    (h : store.state = some st)
    (hmiss : store.txs v = none)
    (hlow : st.submittedNonce < v) :
    v ∉ (processNextPendingTx M chain store).2 ∧
    (processNextPendingTx M chain store).1.txs v = none ∧
    (∃ st', (processNextPendingTx M chain store).1.state = some st' ∧
      st'.submittedNonce ≠ v) ∧
    (∀ (g : Int) (hsh : String), g ∈ (processNextPendingTx M chain store).2 →
      chain.send g = .ok hsh → v < g →
      ∃ st', (processNextPendingTx M chain store).1.state = some st' ∧
        v < st'.submittedNonce) ∧
    (∀ (chain2 : ChainEnv) (store2 : Store) (st2 : WalletState),
      store2.state = some st2 → v ≤ st2.submittedNonce →
      v ∉ (processNextPendingTx M chain2 store2).2) := by
  obtain ⟨st1, L, st', txs', att, hp, hs, hc, hL, hloop, heq⟩ :=
    processNext_destruct M chain store st h
  simp only [heq]
  obtain ⟨hm, he⟩ := processLoop_miss chain L _ _ _ _ _ _ _ _ hloop hmiss
  obtain ⟨_, _, l3, l4, _, _, _, _⟩ := processLoop_spec chain L _ _ _ _ _ _ _ hloop
  refine ⟨hm, he, ⟨st', rfl, ?_⟩, ?_, ?_⟩
  · rcases l3 with l3 | l3
    · omega
    · intro hv; rw [hv] at l3; exact hm l3
  · intro g hsh hg hok hvg
    exact ⟨st', rfl, by
      have := processLoop_ok_advances chain L _ _ _ _ _ _ _ _ _ hloop hg hok
      omega⟩
  · intro chain2 store2 st2 h2 hv2
    obtain ⟨st1b, Lb, stb', txsb', attb, hpb, hsb, hcb, hLb, hloopb, heqb⟩ :=
      processNext_destruct M chain2 store2 st2 h2
    simp only [heqb]
    intro hvm
    obtain ⟨_, _, _, l4b, _, _, _, _⟩ := processLoop_spec chain2 Lb _ _ _ _ _ _ _ hloopb
    have := (l4b v hvm).1
    omega

/-- One submit call on a wallet with no persisted state and a successful chain
query: the bootstrap inside the exclusive section seeds the state from the
chain count, assigns nonce cn and makes one chain query. -/
theorem handleSubmit_state_none (enc : String → List String → String)
    (cn : Int) (now : Int) (addr : String) (body : SubmitTxRequest)
    (store : Store) (h : store.state = none) :
    handleSubmitTransaction enc (.ok cn) now addr body store = .ok
      { store := { state := some ⟨cn + 1, cn - 1, cn - 1⟩
                   address := some (lowStr addr)
                   txs := putTx store.txs cn (recordOf enc now body cn) }
        result := { nonce := cn, status := strPending }
        chainQueries := 1
        writes := [[PutEntry.addressE (lowStr addr)],
          [PutEntry.stateE ⟨cn + 1, cn - 1, cn - 1⟩],
          [PutEntry.txE cn (recordOf enc now body cn)]] } := by
  have hn : cn + 1 - 1 = cn := by omega
  simp only [handleSubmitTransaction, getAndIncrementNonce, h]
  simp [hn]

/-- C6 counterexample: at a concrete initialized wallet one submit call performs
three separate single-entry put calls — address, then nonce state, then record —
and no single put call carries the nonce state together with the record, so the
two are not persisted as one atomic write. -/
theorem C6_counterexample :
    (handleSubmitTransaction encW (.ok 0) 0 addrW bodyW storeW).map (fun s => s.writes) =
      .ok [[PutEntry.addressE (lowStr addrW)],
        [PutEntry.stateE ⟨6, 2, 1⟩],
        [PutEntry.txE 5 (recordOf encW 0 bodyW 5)]] ∧
    ¬ atomicStateAndRecord [[PutEntry.addressE (lowStr addrW)],
        [PutEntry.stateE ⟨6, 2, 1⟩],
        [PutEntry.txE 5 (recordOf encW 0 bodyW 5)]] := by
  constructor
  · rw [handleSubmit_state_some encW (.ok 0) 0 addrW bodyW storeW stW rfl]
    rfl
  · rintro ⟨w, hw, ⟨st, hst⟩, ⟨n, t, htx⟩⟩
    simp only [List.mem_cons, List.not_mem_nil, or_false] at hw
    rcases hw with rfl | rfl | rfl
    · exact PutEntry.noConfusion (List.mem_singleton.mp hst)
    · exact PutEntry.noConfusion (List.mem_singleton.mp htx)
    · exact PutEntry.noConfusion (List.mem_singleton.mp hst)

/-- C6 amended: every submit call on an initialized wallet does persist the
updated NonceState and then the new TransactionRecord before returning, but in
two separate put calls (the state inside getAndIncrementNonce, the record
afterwards), so a durable intermediate state exists in which the nonce is
assigned in the NonceState while its record is still absent; applying the whole
trace in order yields exactly the store the call returns. -/
theorem C6_two_separate_writes (enc : String → List String → String)
    (cc : Except String Int) (now : Int) (addr : String) (body : SubmitTxRequest)
    (store : Store) (st : WalletState) (h : store.state = some st)
    (hfresh : store.txs st.pendingNonce = none) :
    ∃ sres : SubmitOut,
      handleSubmitTransaction enc cc now addr body store = .ok sres ∧
      sres.writes = [[PutEntry.addressE (lowStr addr)],
        [PutEntry.stateE { st with pendingNonce := st.pendingNonce + 1 }],
        [PutEntry.txE st.pendingNonce (recordOf enc now body st.pendingNonce)]] ∧
      (applyWrites store (sres.writes.take 2)).state =
        some { st with pendingNonce := st.pendingNonce + 1 } ∧
      (applyWrites store (sres.writes.take 2)).txs st.pendingNonce = none ∧
      applyWrites store sres.writes = sres.store := by
  refine ⟨_, handleSubmit_state_some enc cc now addr body store st h, rfl, rfl, ?_, rfl⟩
  exact hfresh

/-- C7 counterexample: a submit whose request has no destination is not rejected
with a validation error: at a concrete initialized wallet it succeeds with
status pending, assigns nonce 5 and stores a record whose destination is
absent. -/
theorem C7_counterexample :
    (handleSubmitTransaction encW (.ok 0) 0 addrW bodyNoTo storeW).map (fun s => s.result) =
      .ok ⟨5, strPending⟩ ∧
    (handleSubmitTransaction encW (.ok 0) 0 addrW bodyNoTo storeW).map
        (fun s => s.store.txs 5) =
      .ok (some (recordOf encW 0 bodyNoTo 5)) ∧
    (recordOf encW 0 bodyNoTo 5).params.«to» = none := by
  refine ⟨?_, ?_, rfl⟩
  · rw [handleSubmit_state_some encW (.ok 0) 0 addrW bodyNoTo storeW stW rfl]
    rfl
  · rw [handleSubmit_state_some encW (.ok 0) 0 addrW bodyNoTo storeW stW rfl]
    rfl

/-- C7 amended: submit performs no validation of the destination: on a wallet
with persisted state every request — with or without a destination — is accepted,
gets the next nonce with status pending and a record holding exactly the
request's (possibly absent) destination; such a call makes no chain query, so
its outcome is identical whatever the chain would answer and it cannot fail from
downstream chain conditions; only a first-time submit runs the bootstrap chain
query and propagates that query's failure to the caller. -/
theorem C7_no_validation (enc : String → List String → String)
    (cc cc2 : Except String Int) (now : Int) (addr : String)
    (body : SubmitTxRequest) (store : Store) (st : WalletState)
    (h : store.state = some st) :
    handleSubmitTransaction enc cc now addr body store =
      handleSubmitTransaction enc cc2 now addr body store ∧
    (∃ sres : SubmitOut, handleSubmitTransaction enc cc now addr body store = .ok sres ∧
      sres.result = ⟨st.pendingNonce, strPending⟩ ∧
      sres.chainQueries = 0 ∧
      sres.store.txs st.pendingNonce = some (recordOf enc now body st.pendingNonce) ∧
      (recordOf enc now body st.pendingNonce).params.«to» = body.«to») ∧
    (∀ (e : String) (store2 : Store), store2.state = none →
      handleSubmitTransaction enc (.error e) now addr body store2 = .error e) := by
  refine ⟨?_, ?_, ?_⟩
  · rw [handleSubmit_state_some enc cc now addr body store st h,
        handleSubmit_state_some enc cc2 now addr body store st h]
  · refine ⟨_, handleSubmit_state_some enc cc now addr body store st h, rfl, rfl, ?_, rfl⟩
    simp [putTx]
  · intro e store2 h2
    simp [handleSubmitTransaction, getAndIncrementNonce, h2]

/-- C8: two first-time submit calls on a wallet with no persisted state, run one
after the other as the actor's serialization and the blocking exclusive section
around the bootstrap dictate, produce the two distinct consecutive nonces cn and
cn + 1, query the chain's confirmed count exactly once in total, and the second
call finds and reuses the initialized state instead of bootstrapping again or
overwriting it. -/
theorem C8_first_time_bootstrap (enc : String → List String → String)
    (now now2 : Int) (addr addr2 : String) (b1 b2 : SubmitTxRequest)
    (store : Store) (cn : Int) (h : store.state = none) :
    ∃ s1 s2 : SubmitOut,
      handleSubmitTransaction enc (.ok cn) now addr b1 store = .ok s1 ∧
      handleSubmitTransaction enc (.ok cn) now2 addr2 b2 s1.store = .ok s2 ∧
      s1.result.nonce = cn ∧ s2.result.nonce = cn + 1 ∧
      s1.result.nonce ≠ s2.result.nonce ∧
      s1.chainQueries = 1 ∧ s2.chainQueries = 0 ∧
      s1.store.state = some ⟨cn + 1, cn - 1, cn - 1⟩ ∧
      s2.store.state = some ⟨cn + 2, cn - 1, cn - 1⟩ := by
  refine ⟨_, _, handleSubmit_state_none enc cn now addr b1 store h,
    handleSubmit_state_some enc (.ok cn) now2 addr2 b2 _ ⟨cn + 1, cn - 1, cn - 1⟩ rfl,
    rfl, rfl, by simp, rfl, rfl, rfl, ?_⟩
  rw [show cn + 1 + 1 = cn + 2 by omega]

/-! ### The pool rotation -/

/-- One seeded getNextWallet call: the address at the cursor within the pool,
and the cursor advanced by one mod the pool size. -/
theorem getNextWallet_step (addresses disabled : List String) (c rand : Nat)
    (hm : (poolOf addresses disabled).length ≠ 0) :
    getNextWallet addresses disabled (c : Int) rand =
      some ((poolOf addresses disabled).getD (c % (poolOf addresses disabled).length) strEmpty,
        (((c + 1) % (poolOf addresses disabled).length : Nat) : Int)) := by
  have hc1 : ¬ ((c : Int) = -1) := by omega
  have h1 : ((c : Int) % ((poolOf addresses disabled).length : Int)).toNat
      = c % (poolOf addresses disabled).length := by
    rw [← Int.natCast_mod, Int.toNat_natCast]
  have h2 : ((c : Int) + 1) % ((poolOf addresses disabled).length : Int)
      = (((c + 1) % (poolOf addresses disabled).length : Nat) : Int) := by
    push_cast
    ring
  simp only [getNextWallet, if_neg hm, if_neg hc1]
  rw [h1, h2]

/-- Shifting one rotation step out of a mapped range of cursor positions. -/
theorem map_range_mod_shift (pool : List String) (m c k : Nat) :
    (List.range (k + 1)).map (fun i => pool.getD ((c + i) % m) strEmpty) =
      pool.getD (c % m) strEmpty ::
        (List.range k).map (fun i => pool.getD (((c + 1) % m + i) % m) strEmpty) := by
  rw [List.range_succ_eq_map, List.map_cons, List.map_map]
  refine congrArg₂ List.cons ?_ ?_
  · simp
  · apply List.map_congr_left
    intro i _
    simp only [Function.comp]
    rw [Nat.mod_add_mod, show c + 1 + i = c + i.succ from by omega]

/-- Closed form of k seeded calls: the i-th output is the pool entry at index
(c + i) mod m. -/
theorem runNextWallet_closed (addresses disabled : List String)
    (hm : (poolOf addresses disabled).length ≠ 0) :
    ∀ (k c : Nat),
      runNextWallet addresses disabled (c : Int) k =
        (List.range k).map
          (fun i : Nat =>
            (poolOf addresses disabled).getD
              ((c + i) % (poolOf addresses disabled).length) strEmpty) := by
  intro k
  induction k with
  | zero => intro c; simp [runNextWallet]
  | succ k ih =>
      intro c
      simp only [runNextWallet, getNextWallet_step addresses disabled c 0 hm]
      rw [ih ((c + 1) % (poolOf addresses disabled).length)]
      rw [map_range_mod_shift]

/-- The index inside one cycle of length m that lands on residue j. -/
theorem mod_cycle_hit (m b j : Nat) (hm : 0 < m) (hj : j < m) :
    (b + (j + (m - b % m)) % m) % m = j := by
  have hcm : b % m < m := Nat.mod_lt b hm
  have h1 : (b + (j + (m - b % m)) % m) % m = (b % m + (j + (m - b % m)) % m) % m :=
    (Nat.mod_add_mod b m _).symm
  rw [h1, Nat.add_mod_mod]
  have h2 : b % m + (j + (m - b % m)) = m + j := by omega
  rw [h2, Nat.add_mod_left, Nat.mod_eq_of_lt hj]

theorem hits_cycle (m c j : Nat) (hm : 0 < m) (hj : j < m) : hits m c m j = 1 := by
  have hinj : ∀ x ∈ List.range m, ∀ y ∈ List.range m,
      (c + x) % m = (c + y) % m → x = y := by
    intro x hx y hy hxy
    rw [List.mem_range] at hx hy
    have hmod : x % m = y % m := Nat.ModEq.add_left_cancel' c hxy
    rwa [Nat.mod_eq_of_lt hx, Nat.mod_eq_of_lt hy] at hmod
  have hnodup : ((List.range m).map (fun i => (c + i) % m)).Nodup :=
    List.Nodup.map_on hinj (List.nodup_range m)
  have hmem : j ∈ (List.range m).map (fun i => (c + i) % m) :=
    List.mem_map.mpr ⟨(j + (m - c % m)) % m, List.mem_range.mpr (Nat.mod_lt _ hm),
      mod_cycle_hit m c j hm hj⟩
  have hcount : ((List.range m).map (fun i => (c + i) % m)).count j = 1 :=
    List.count_eq_one_of_mem hnodup hmem
  unfold hits
  rw [← hcount, List.count_eq_countP, List.countP_map]
  rfl

theorem hits_add_cycle (m c j t : Nat) (hm : 0 < m) (hj : j < m) :
    hits m c (t + m) j = hits m c t j + 1 := by
  unfold hits
  rw [List.range_add, List.countP_append]
  congr 1
  rw [List.countP_map]
  have hfun : ((fun i => (c + i) % m == j) ∘ (t + ·)) =
      (fun i => (c + t + i) % m == j) := by
    funext i
    simp only [Function.comp]
    rw [show c + (t + i) = c + t + i by omega]
  rw [hfun]
  exact hits_cycle m (c + t) j hm hj

theorem hits_mul_add (m c j : Nat) (hm : 0 < m) (hj : j < m) :
    ∀ q r : Nat, hits m c (q * m + r) j = q + hits m c r j := by
  intro q
  induction q with
  | zero => intro r; simp
  | succ q ihq =>
      intro r
      rw [show (q + 1) * m + r = (q * m + r) + m by ring,
        hits_add_cycle m c j _ hm hj, ihq r]
      omega

theorem hits_le_one (m c j r : Nat) (hm : 0 < m) (hj : j < m) (hr : r ≤ m) :
    hits m c r j ≤ 1 := by
  calc hits m c r j ≤ hits m c m j :=
        List.Sublist.countP_le _ ((List.range_sublist).mpr hr)
    _ = 1 := hits_cycle m c j hm hj

theorem hits_floor_ceil (m c j k : Nat) (hm : 0 < m) (hj : j < m) :
    hits m c k j = k / m ∨ hits m c k j = (k + m - 1) / m := by
  have hdm := Nat.div_add_mod k m
  have hrm : k % m < m := Nat.mod_lt k hm
  obtain ⟨q, r, hk, hr⟩ : ∃ q r : Nat, k = q * m + r ∧ r < m :=
    ⟨k / m, k % m, by rw [Nat.mul_comm]; omega, by omega⟩
  subst hk
  rw [hits_mul_add m c j hm hj q r]
  have hq : (q * m + r) / m = q := by
    rw [show q * m + r = m * q + r by ring, Nat.mul_add_div hm, Nat.div_eq_of_lt hr]
    omega
  have he := hits_le_one m c j r hm hj (by omega)
  rcases (by omega : hits m c r j = 0 ∨ hits m c r j = 1) with h0 | h1
  · left
    rw [h0, hq]
    omega
  · by_cases hr0 : r = 0
    · subst hr0
      simp [hits] at h1
    · right
      rw [h1]
      have hmm : m * (q + 1) = q * m + m := by ring
      rw [show q * m + r + m - 1 = m * (q + 1) + (r - 1) from by rw [hmm]; omega,
        Nat.mul_add_div hm, Nat.div_eq_of_lt (by omega)]

/-- getD at an in-range index of a duplicate-free list is injective in the
index. -/
theorem getD_inj (pool : List String) (hnd : pool.Nodup) (x j : Nat)
    (hx : x < pool.length) (hj : j < pool.length) :
    pool.getD x strEmpty = pool.getD j strEmpty ↔ x = j := by
  rw [List.getD_eq_getElem pool strEmpty hx, List.getD_eq_getElem pool strEmpty hj]
  constructor
  · intro hxy
    have hfin : (⟨x, hx⟩ : Fin pool.length) = ⟨j, hj⟩ :=
      (hnd.get_inj_iff).mp (by simpa [List.get_eq_getElem] using hxy)
    exact congrArg Fin.val hfin
  · rintro rfl
    rfl

/-- getD of a mapped range at an in-range index. -/
theorem map_range_getD {α : Type} (f : Nat → α) (k i : Nat) (d : α) (h : i < k) :
    ((List.range k).map f).getD i d = f i := by
  have hl : i < ((List.range k).map f).length := by simpa using h
  rw [List.getD_eq_getElem _ d hl, List.getElem_map, List.getElem_range]

/-- C9: after the cursor has been seeded, each getNextWallet call returns the
address at the cursor position within the enabled pool and advances the cursor
by one mod the pool size; over any k calls against an unchanging non-empty
duplicate-free enabled pool of size m, every pool address is returned either
floor(k/m) or ceil(k/m) times, no address is returned twice within any m
consecutive calls, and every window of m consecutive calls returns every pool
address — no address repeats before every address has been returned once. -/
theorem C9_round_robin (addresses disabled : List String) (c k : Nat)
    (hm : (poolOf addresses disabled).length ≠ 0)
    (hnd : (poolOf addresses disabled).Nodup) :
    getNextWallet addresses disabled (c : Int) 0 =
      some ((poolOf addresses disabled).getD
          (c % (poolOf addresses disabled).length) strEmpty,
        (((c + 1) % (poolOf addresses disabled).length : Nat) : Int)) ∧
    (runNextWallet addresses disabled (c : Int) k).length = k ∧
    (∀ a ∈ poolOf addresses disabled,
      (runNextWallet addresses disabled (c : Int) k).count a
          = k / (poolOf addresses disabled).length ∨
      (runNextWallet addresses disabled (c : Int) k).count a
          = (k + (poolOf addresses disabled).length - 1) /
              (poolOf addresses disabled).length) ∧
    (∀ i1 i2 : Nat, i1 < i2 → i2 < i1 + (poolOf addresses disabled).length → i2 < k →
      (runNextWallet addresses disabled (c : Int) k).getD i1 strEmpty ≠
        (runNextWallet addresses disabled (c : Int) k).getD i2 strEmpty) ∧
    (∀ a ∈ poolOf addresses disabled, ∀ i0 : Nat,
      i0 + (poolOf addresses disabled).length ≤ k →
      ∃ i, i0 ≤ i ∧ i < i0 + (poolOf addresses disabled).length ∧
        (runNextWallet addresses disabled (c : Int) k).getD i strEmpty = a) := by
  have hrun := runNextWallet_closed addresses disabled hm k c
  have hm0 : 0 < (poolOf addresses disabled).length := Nat.pos_of_ne_zero hm
  set pool := poolOf addresses disabled with hpool
  set m := pool.length with hmlen
  refine ⟨getNextWallet_step addresses disabled c 0 hm, ?_, ?_, ?_, ?_⟩
  · rw [hrun]
    simp
  · intro a ha
    obtain ⟨⟨j, hj⟩, hja⟩ := List.mem_iff_get.mp ha
    have hja' : pool.getD j strEmpty = a := by
      rw [List.getD_eq_getElem pool strEmpty hj]
      simpa [List.get_eq_getElem] using hja
    have hcnt : (runNextWallet addresses disabled (c : Int) k).count a = hits m c k j := by
      rw [hrun, List.count_eq_countP, List.countP_map]
      unfold hits
      apply List.countP_congr
      intro x _
      simp only [Function.comp, beq_iff_eq]
      rw [← hja']
      exact getD_inj pool hnd _ j (Nat.mod_lt _ hm0) hj
    rw [hcnt]
    exact hits_floor_ceil m c j k hm0 hj
  · intro i1 i2 h12 hw hk2
    rw [hrun, map_range_getD _ _ _ _ (by omega), map_range_getD _ _ _ _ hk2]
    intro heq
    have hij : (c + i1) % m = (c + i2) % m :=
      (getD_inj pool hnd _ _ (Nat.mod_lt _ hm0) (Nat.mod_lt _ hm0)).mp heq
    have h2 : i1 ≡ i2 [MOD m] := Nat.ModEq.add_left_cancel' c hij
    have hdvd : m ∣ i2 - i1 := (Nat.modEq_iff_dvd' (by omega)).mp h2
    have := Nat.le_of_dvd (by omega) hdvd
    omega
  · intro a ha i0 hik
    obtain ⟨⟨j, hj⟩, hja⟩ := List.mem_iff_get.mp ha
    have hja' : pool.getD j strEmpty = a := by
      rw [List.getD_eq_getElem pool strEmpty hj]
      simpa [List.get_eq_getElem] using hja
    have hd : (j + (m - (c + i0) % m)) % m < m := Nat.mod_lt _ hm0
    refine ⟨i0 + (j + (m - (c + i0) % m)) % m, by omega, by omega, ?_⟩
    rw [hrun, map_range_getD _ _ _ _ (by omega)]
    rw [show c + (i0 + (j + (m - (c + i0) % m)) % m)
        = (c + i0) + (j + (m - (c + i0) % m)) % m from by omega]
    rw [mod_cycle_hit m (c + i0) j hm0 hj]
    exact hja'

/-! ### Witnesses -/

/-- Witness for C1 at three concrete submissions. -/
theorem C1_witness :
    (runSubmits encW (.ok 0) 0 addrW [bodyW, bodyW, bodyW] storeW).2 =
      (List.range [bodyW, bodyW, bodyW].length).map
        (fun i : Nat => Except.ok ⟨stW.pendingNonce + i, strPending⟩) :=
  (C1_submit_sequence encW (.ok 0) 0 addrW [bodyW, bodyW, bodyW] storeW stW rfl).1

/-- Witness for C2 at a concrete processQueue invocation. -/
theorem C2_witness :
    ∃ st', (processNextPendingTx 5 chain10 store10).1.state = some st' ∧ NonceInv st' ∧
      st'.confirmedNonce = max st4.confirmedNonce (chain10.count - 1) ∧
      st4.confirmedNonce ≤ st'.confirmedNonce ∧
      st4.submittedNonce ≤ st'.submittedNonce ∧
      st'.pendingNonce = st4.pendingNonce :=
  C2_nonce_state_invariant.2.2.2 5 chain10 store10 st4 rfl ⟨by decide, by decide⟩
    (by decide)

/-- Witness for C3 at a concrete processQueue invocation. -/
theorem C3_witness :
    ∃ st', (processNextPendingTx 5 chain10 store10).1.state = some st' ∧
      st'.submittedNonce - st'.confirmedNonce ≤ 5 :=
  (C3_in_flight_window 5 chain10 store10 st4 rfl (by decide)).1

/-- Witness for C4: nonce 2 fails with a rate-limit error; its record is
untouched. -/
theorem C4_witness :
    (processNextPendingTx 5 chain4 store4).1.txs 2 = store4.txs 2 :=
  (C4_retriable_stops 5 chain4 store4 st4 2 msgRate rfl (by decide) rfl
    (by decide)).2.2.1

/-- Witness for C5: nonce 1 fails non-retriably, the skip succeeds and the
record carries the skip hash and the annotated error. -/
theorem C5_witness :
    (processNextPendingTx 5 chain5 store4).1.txs 1 =
      some { mkRec 1 with hash := some (skipNonce chain5 1),
                          error := some (skippedTag ++ msgBad) } :=
  ((C5_nonretriable_skip 5 chain5 store4 st4 1 msgBad (mkRec 1) rfl (by decide)
    (by decide) rfl (by decide)).1 (by decide)).1

/-- Witness for C6 at a concrete submit call. -/
theorem C6_witness :
    ∃ sres : SubmitOut,
      handleSubmitTransaction encW (.ok 0) 0 addrW bodyW storeW = .ok sres ∧
      sres.writes = [[PutEntry.addressE (lowStr addrW)],
        [PutEntry.stateE { stW with pendingNonce := stW.pendingNonce + 1 }],
        [PutEntry.txE stW.pendingNonce (recordOf encW 0 bodyW stW.pendingNonce)]] ∧
      (applyWrites storeW (sres.writes.take 2)).state =
        some { stW with pendingNonce := stW.pendingNonce + 1 } ∧
      (applyWrites storeW (sres.writes.take 2)).txs stW.pendingNonce = none ∧
      applyWrites storeW sres.writes = sres.store :=
  C6_two_separate_writes encW (.ok 0) 0 addrW bodyW storeW stW rfl rfl

/-- Witness for C7 at a concrete initialized wallet: the submit outcome is the
same for two different chain answers. -/
theorem C7_witness :
    handleSubmitTransaction encW (.ok 0) 0 addrW bodyNoTo storeW =
      handleSubmitTransaction encW (.ok 7) 0 addrW bodyNoTo storeW :=
  (C7_no_validation encW (.ok 0) (.ok 7) 0 addrW bodyNoTo storeW stW rfl).1

/-- Witness for C8 at a concrete fresh wallet with chain count 7. -/
theorem C8_witness :
    ∃ s1 s2 : SubmitOut,
      handleSubmitTransaction encW (.ok 7) 0 addrW bodyW storeN = .ok s1 ∧
      handleSubmitTransaction encW (.ok 7) 0 addrW bodyW s1.store = .ok s2 ∧
      s1.result.nonce = 7 ∧ s2.result.nonce = 7 + 1 ∧
      s1.result.nonce ≠ s2.result.nonce ∧
      s1.chainQueries = 1 ∧ s2.chainQueries = 0 ∧
      s1.store.state = some ⟨7 + 1, 7 - 1, 7 - 1⟩ ∧
      s2.store.state = some ⟨7 + 2, 7 - 1, 7 - 1⟩ :=
  C8_first_time_bootstrap encW 0 0 addrW addrW bodyW bodyW storeN 7 rfl

/-- Witness for C9 at a pool of three addresses with one disabled. -/
theorem C9_witness :
    getNextWallet addressesW disabledW ((1 : Nat) : Int) 0 =
      some ((poolOf addressesW disabledW).getD
          (1 % (poolOf addressesW disabledW).length) strEmpty,
        (((1 + 1) % (poolOf addressesW disabledW).length : Nat) : Int)) :=
  (C9_round_robin addressesW disabledW 1 5 (by decide) (by decide)).1

/-- Witness for C10: nonce 2 has no record; after the invocation it still has
none. -/
theorem C10_witness :
    (processNextPendingTx 5 chain10 store10).1.txs 2 = none :=
  (C10_missing_record 5 chain10 store10 st4 2 rfl (by decide) (by decide)).2.1

end DurableWallets
